import Mathlib

/-!
# pbotp-responder: the Responder and its two encoders

A shallow embedding of `main.go` (`NewResponder`, `Responder.Response`,
`formatCodeNumeric`, `formatCodeBIP39`) together with the properties the
specification states about them.

Conventions of the embedding:

* a Go `[]byte` is a `List Byte` (`Byte = Fin 256`); a Go `string` is a
  `List Char` (every string the program builds is ASCII, so byte offsets
  and rune offsets coincide);
* a Go `int` is an `Int`, a `uint64` is a `Nat` reduced modulo `2 ^ 64`
  after every multiplication;
* a Go function either returns normally or stops with a run-time panic:
  `Outcome` keeps the two apart;
* the library primitives the program calls but does not define (X25519,
  keyed BLAKE2s-256, the BIP-39 word list) are parameters.
-/

namespace Pbotp

/-! ## Data model -/

/-- One octet. -/
abbrev Byte := Fin 256

/-- Go `string`, as its sequence of (ASCII) characters. -/
abbrev GoString := List Char

/-- Go `type Mode string`. -/
abbrev Mode := String

/-- Go `ModeCode`. -/
def ModeCode : Mode := "code"

/-- Go `ModePhrase`. -/
def ModePhrase : Mode := "phrase"

/-- The error values the program creates, one constructor per
`fmt.Errorf` or `errors.New` site of `main.go`. -/
inductive Err where
  /-- Message `failed to create private key: ...`. -/
  | privateKey
  /-- Message `invalid length %d; must be > 0`. -/
  | lengthNotPositive (length : Int)
  /-- Message `invalid length %d; must be < %d for %s`. -/
  | lengthTooLarge (length lengthMax : Int) (mode : Mode)
  /-- Message `loading challenge: ...`. -/
  | loadingChallenge
  /-- Message `x25519: ...`. -/
  | x25519
  /-- Message `blake2s: ...`. -/
  | blake2s
  /-- Message `unsupported mode: %q`. -/
  | unsupportedMode (mode : Mode)
  /-- Message `bip39 index out of range`. -/
  | bip39IndexOutOfRange
  deriving DecidableEq, Repr

/-- Run-time panics the embedded functions can raise. -/
inductive Panic where
  /-- Panic `integer divide by zero`. -/
  | divideByZero
  /-- Panic `slice bounds out of range`. -/
  | sliceBounds
  /-- Panic `makeslice: len out of range`. -/
  | makeSlice
  deriving DecidableEq, Repr

/-- How a call of a Go function ends: a normal return or a panic. -/
inductive Outcome (α : Type) where
  | ret (a : α)
  | panic (p : Panic)
  deriving DecidableEq, Repr

/-- Go `(string, error)`: the error component is `none` for `nil`. -/
abbrev StrErr := GoString × Option Err

/-- Go `type Responder struct`. The private key is kept as the 32 bytes
`ecdh.X25519().NewPrivateKey` accepted. -/
structure Responder where
  privKey : List Byte
  mode : Mode
  length : Int
  deriving DecidableEq, Repr

/-- The library primitives `Response` calls, taken as parameters.
`ecdh k c` is `PrivateKey.ECDH` of crypto/ecdh on a 32-byte private key
and a 32-byte peer key (`none` when the library rejects the peer key);
`blake2s256 k m` is the BLAKE2s-256 digest keyed with `k` of the message
`m`. The two size fields are the libraries' output sizes. -/
structure Primitives where
  ecdh : List Byte → List Byte → Option (List Byte)
  ecdh_size : ∀ k c s, ecdh k c = some s → s.length = 32
  blake2s256 : List Byte → List Byte → List Byte
  blake2s256_size : ∀ k m, (blake2s256 k m).length = 32

/-! ## NewResponder -/

/-- Library `ecdh.X25519().NewPrivateKey`: accepts exactly 32-byte keys. -/
def newPrivateKey (privKeyBytes : List Byte) : Option (List Byte) :=
  if privKeyBytes.length = 32 then some privKeyBytes else none

/-- Library `ecdh.X25519().NewPublicKey`: accepts exactly 32-byte keys. -/
def newPublicKey (key : List Byte) : Option (List Byte) :=
  if key.length = 32 then some key else none

/-- The `switch mode` of `NewResponder`; `lengthMax` keeps its zero value
for any other mode. -/
def lengthMaxOf (mode : Mode) : Int :=
  if mode = ModeCode then 19
  else if mode = ModePhrase then 23
  else 0

/-- Go `NewResponder`. `(*Responder, error)` is an `Except`: every return
of the function has exactly one of the two non-nil. -/
def NewResponder (privKeyBytes : List Byte) (mode : Mode) (length : Int) :
    Except Err Responder :=
  match newPrivateKey privKeyBytes with
  | none => .error .privateKey
  | some privKey =>
    let lengthMax := lengthMaxOf mode
    if length ≤ 0 then .error (.lengthNotPositive length)
    else if length > lengthMax then .error (.lengthTooLarge length lengthMax mode)
    else .ok { privKey := privKey, mode := mode, length := length }

/-! ## formatCodeNumeric -/

/-- Library `binary.LittleEndian.Uint64`, and more generally the value of a byte
string read least-significant byte first. -/
def leValue : List Byte → Nat
  | [] => 0
  | b :: bs => b.val + 256 * leValue bs

/-- The loop `for i := 0; i < length; i++ { modulus *= 10 }` on a
`uint64`, started from `modulus`. -/
def modulusLoop : Nat → Nat → Nat
  | 0, modulus => modulus
  | k + 1, modulus => modulusLoop k (modulus * 10 % 2 ^ 64)

/-- Decimal representation of a natural number. -/
def decimal (v : Nat) : GoString := Nat.toDigits 10 v

/-- Library `fmt.Sprintf("%0*d", width, v)` for an unsigned `v`. A width beyond
one million in absolute value is reported as `%!(BADWIDTH)` and then
ignored; a negative width left-justifies and pads with blanks; otherwise
the digits are padded with zeros on the left up to `width`. -/
def sprintfZeroPad (width : Int) (v : Nat) : GoString :=
  let ds := decimal v
  if width > 1000000 ∨ width < -1000000 then "%!(BADWIDTH)".toList ++ ds
  else if width < 0 then ds ++ List.replicate (width.natAbs - ds.length) ' '
  else List.replicate (width.toNat - ds.length) '0' ++ ds

/-- The loop over `[]int{5, 4, 3}` that picks `groupSize`, started from
the current `groupSize`. -/
def pickGroupSize (length : Int) : List Nat → Nat → Nat
  | [], groupSize => groupSize
  | candidate :: rest, groupSize =>
    if Int.tmod length candidate = 0 then candidate
    else pickGroupSize length rest groupSize

/-- The loop `for i, r := range raw` that writes `raw` into the builder
`b`, entered at index `i` with `rest` still to visit. The test
`(len(raw)-i) % groupSize` is evaluated only when `i > 0`, and panics
when `groupSize` is zero. -/
def groupLoop (rawLen groupSize : Nat) : List Char → Nat → GoString → Outcome GoString
  | [], _, b => .ret b
  | r :: rest, i, b =>
    if 0 < i then
      if groupSize = 0 then .panic .divideByZero
      else if (rawLen - i) % groupSize = 0 then
        groupLoop rawLen groupSize rest (i + 1) (b ++ [' '] ++ [r])
      else groupLoop rawLen groupSize rest (i + 1) (b ++ [r])
    else groupLoop rawLen groupSize rest (i + 1) (b ++ [r])

/-- Go `formatCodeNumeric`. `sig[:8]` panics on a slice shorter than 8
bytes (the model takes the capacity of `sig` to be its length), and
`P % modulus` panics when the wrapped product is zero. -/
def formatCodeNumeric (sig : List Byte) (length : Int) : Outcome StrErr :=
  if sig.length < 8 then .panic .sliceBounds
  else
    let P := leValue (sig.take 8)
    let modulus := modulusLoop length.toNat 1
    if modulus = 0 then .panic .divideByZero
    else
      let codeVal := P % modulus
      let raw := sprintfZeroPad length codeVal
      let groupSize := pickGroupSize length [5, 4, 3] 0
      match groupLoop raw.length groupSize raw 0 [] with
      | .panic p => .panic p
      | .ret s => .ret (s, none)

/-! ## formatCodeBIP39 -/

/-- Library `new(big.Int).SetBytes`: the value of a byte string read
most-significant byte first. -/
def beValue (bs : List Byte) : Nat :=
  bs.foldl (fun n b => n * 256 + b.val) 0

/-- Library `(*big.Int).Int64` of a non-negative integer: its low 64 bits read as
a two's-complement `int64`. -/
def int64OfNat (x : Nat) : Int :=
  let u : Nat := x % 2 ^ 64
  if u < 2 ^ 63 then (u : Int) else (u : Int) - 2 ^ 64

/-- The loop `for i := 0; i < length; i++` of `formatCodeBIP39`, entered
at index `i` with `fuel = length - i` iterations left, the current value
of `n` and the slice `words`. An `error` is the early return at the index
guard. -/
def bip39Loop (bip39WordList : List GoString) :
    Nat → Nat → Nat → List GoString → Except Err (List GoString)
  | 0, _, _, words => .ok words
  | fuel + 1, i, n, words =>
    let idx := n &&& (2048 - 1)
    let idxVal := int64OfNat idx
    if idxVal < 0 ∨ idxVal ≥ (bip39WordList.length : Int) then
      .error .bip39IndexOutOfRange
    else
      bip39Loop bip39WordList fuel (i + 1) (n >>> 11)
        (words.set i (bip39WordList.getD idxVal.toNat []))

/-- Library `strings.Join(words, " ")`. -/
def joinSpace (words : List GoString) : GoString :=
  List.intercalate [' '] words

/-- Size in bytes of a Go `string` header on a 64-bit platform. -/
def stringSize : Int := 16

/-- Go runtime constant `maxAlloc` on a 64-bit platform (48 address
bits): the largest allocation `runtime.makeslice` lets through. -/
def maxAlloc : Int := 2 ^ 48

/-- Go `formatCodeBIP39`, over the word list `bip39.GetWordList()`
returns. `make([]string, length)` panics (`makeslice: len out of range`)
on a negative length and on a length whose `stringSize * length` bytes
exceed `maxAlloc`, that is beyond `2 ^ 44` strings. Below that limit the
allocation is taken to succeed: exhaustion of the memory of the machine
is a fatal error of the Go runtime, outside this model. -/
def formatCodeBIP39 (bip39WordList : List GoString) (sig : List Byte) (length : Int) :
    Outcome StrErr :=
  let rev := sig.reverse
  let n := beValue rev
  if length < 0 ∨ stringSize * length > maxAlloc then .panic .makeSlice
  else
    let words := List.replicate length.toNat ([] : GoString)
    match bip39Loop bip39WordList length.toNat 0 n words with
    | .error e => .ret ([], some e)
    | .ok words => .ret (joinSpace words, none)

/-! ## Responder.Response -/

/-- The bytes of `"de.n621.pbotp.v2\x00"`. -/
def domainTag : List Byte :=
  [100, 101, 46, 110, 54, 50, 49, 46, 112, 98, 111, 116, 112, 46, 118, 50, 0]

/-- Library `blake2s.New256(key)`: fails on a key longer than 32 bytes. -/
def blake2sNew256 (key : List Byte) : Option (List Byte) :=
  if key.length > 32 then none else some key

/-- Go `(*Responder).Response`. The first component is the receiver after
the call (the method assigns to none of its fields), the second what the
call returns. The parameter `length` is not read. -/
def Response (P : Primitives) (bip39WordList : List GoString) (r : Responder)
    (payload challenge : List Byte) (_length : Int) : Responder × Outcome StrErr :=
  (r,
    match newPublicKey challenge with
    | none => .ret ([], some .loadingChallenge)
    | some pubKey =>
      match P.ecdh r.privKey pubKey with
      | none => .ret ([], some .x25519)
      | some dhSecret =>
        match blake2sNew256 dhSecret with
        | none => .ret ([], some .blake2s)
        | some key =>
          let sig := P.blake2s256 key (domainTag ++ payload)
          if r.mode = ModeCode then formatCodeNumeric sig r.length
          else if r.mode = ModePhrase then formatCodeBIP39 bip39WordList sig r.length
          else .ret ([], some (.unsupportedMode r.mode)))

/-! ## Notions the specification uses to describe the outputs -/

/-- The zero-padded code of the specification: `P mod 10 ^ length` written
with `Sprintf("%0*d", length, _)`, `P` being the first eight bytes of the
digest read least-significant byte first. -/
def paddedCode (digest : List Byte) (length : Int) : GoString :=
  sprintfZeroPad length (leValue (digest.take 8) % 10 ^ length.toNat)

/-- The consecutive blocks of `g` characters of `l`: characters
`k * g, ..., k * g + g - 1` for `k = 0, ..., |l| / g - 1`. -/
def blocks (g : Nat) (l : List Char) : List (List Char) :=
  (List.range (l.length / g)).map (fun k => (l.drop (k * g)).take g)

/-- The first of the candidates 5, 4, 3, in that order, that divides
`length`, if there is one. -/
def firstDivisor (length : Int) : Option Nat :=
  [5, 4, 3].find? (fun c : Nat => decide (length % (c : Int) = 0))

/-- Spec-side reading of a phrase: split at spaces and replace each token by its
position in the word list. -/
def wordIndices (wl : List GoString) (s : GoString) : List Nat :=
  (s.splitOn ' ').map (fun w => @List.indexOf GoString instBEqOfDecidableEq w wl)

/-- Spec-side list of the words the phrase is made of: entry
`n / 2 ^ (11 i) mod 2048` of the word list for `i = 0, ..., k - 1`. -/
def selectedWords (wl : List GoString) (n k : Nat) : List GoString :=
  (List.range k).map (fun i => wl.getD (n / 2 ^ (11 * i) % 2048) [])

/-- Spec-side numeric value of a string of decimal digits. -/
def decimalValue (s : GoString) : Nat :=
  s.foldl (fun acc c => acc * 10 + (c.toNat - 48)) 0

/-! ## Sample inputs used by the witnesses -/

/-- A 32-byte key: the bytes 1, 2, ..., 32. -/
def sampleKey : List Byte := (List.range 32).map (fun i => Fin.ofNat (i + 1))

/-- A 32-byte digest whose first eight bytes hold 123456789, least
significant byte first. -/
def sampleDigest : List Byte := [0x15, 0xCD, 0x5B, 0x07] ++ List.replicate 28 0

/-- A stand-in word list of 2048 distinct space-free words: `w0`, `w1`,
..., `w2047`. -/
def sampleWordList : List GoString :=
  (List.range 2048).map (fun i => 'w' :: Nat.toDigits 10 i)

/-- Stand-in primitives of the right shape: the agreement rejects the
all-zero peer key and otherwise answers the peer key itself, the hash
answers the first 32 bytes of key, message and zero padding. -/
def samplePrimitives : Primitives where
  ecdh := fun _ c => if c = List.replicate 32 0 ∨ c.length ≠ 32 then none else some c
  ecdh_size := by
    intro k c s h
    have h2 : (if c = List.replicate 32 0 ∨ c.length ≠ 32 then none else some c) = some s := h
    by_cases hc : c = List.replicate 32 0 ∨ c.length ≠ 32
    · rw [if_pos hc] at h2
      cases h2
    · have hc2 : c.length = 32 := by
        by_contra hne
        exact hc (Or.inr hne)
      rw [if_neg hc] at h2
      cases h2
      exact hc2
  blake2s256 := fun k m => (k ++ m ++ List.replicate 32 0).take 32
  blake2s256_size := by
    intro k m
    simp only [List.length_take, List.length_append, List.length_replicate]
    omega

/-! ## NewResponder: which lengths are accepted -/

theorem newPrivateKey_of_length {key : List Byte} (h : key.length = 32) :
    newPrivateKey key = some key := by
  simp [newPrivateKey, h]

theorem lengthMaxOf_code : lengthMaxOf ModeCode = 19 := by
  simp [lengthMaxOf]

theorem lengthMaxOf_phrase : lengthMaxOf ModePhrase = 23 := by
  simp [lengthMaxOf, ModeCode, ModePhrase]

/-- With a 32-byte key, `NewResponder` succeeds exactly on the lengths
`1 .. lengthMaxOf mode`, and then stores its three arguments. -/
theorem NewResponder_eq {key : List Byte} (hkey : key.length = 32) (mode : Mode)
    (length : Int) :
    NewResponder key mode length =
      if length ≤ 0 then .error (.lengthNotPositive length)
      else if length > lengthMaxOf mode then
        .error (.lengthTooLarge length (lengthMaxOf mode) mode)
      else .ok { privKey := key, mode := mode, length := length } := by
  simp [NewResponder, newPrivateKey_of_length hkey]

/-- C4: for a 32-byte private key and a mode among `code` and `phrase`,
`NewResponder` returns an error if and only if `length <= 0` or `length`
exceeds the ceiling of the mode (19 for code, 23 for phrase); lengths 0,
20 (code) and 24 (phrase) are rejected, 19 (code) and 23 (phrase) are
accepted, and a returned Responder holds the given key, mode and
length. -/
theorem NewResponder_error_iff (key : List Byte) (mode : Mode) (length : Int)
    (hkey : key.length = 32) (hmode : mode = ModeCode ∨ mode = ModePhrase) :
    ((∃ e, NewResponder key mode length = .error e) ↔
        (length ≤ 0 ∨ length > (if mode = ModeCode then 19 else 23)))
      ∧ (∀ r, NewResponder key mode length = .ok r →
          r.privKey = key ∧ r.mode = mode ∧ r.length = length)
      ∧ (∃ e, NewResponder key mode 0 = .error e)
      ∧ (∃ e, NewResponder key ModeCode 20 = .error e)
      ∧ (∃ e, NewResponder key ModePhrase 24 = .error e)
      ∧ (∃ r, NewResponder key ModeCode 19 = .ok r)
      ∧ (∃ r, NewResponder key ModePhrase 23 = .ok r) := by
  have hmax : lengthMaxOf mode = (if mode = ModeCode then 19 else 23) := by
    rcases hmode with h | h
    · subst h; simp [lengthMaxOf]
    · subst h; simp [lengthMaxOf, ModeCode, ModePhrase]
  refine ⟨?_, ?_, ?_, ?_, ?_, ?_, ?_⟩
  · rw [NewResponder_eq hkey, hmax]
    constructor
    · rintro ⟨e, he⟩
      by_contra hcon
      push_neg at hcon
      rw [if_neg (not_le.mpr hcon.1), if_neg (not_lt.mpr hcon.2)] at he
      cases he
    · rintro (h | h)
      · exact ⟨_, if_pos h⟩
      · by_cases h0 : length ≤ 0
        · exact ⟨_, if_pos h0⟩
        · exact ⟨_, by rw [if_neg h0, if_pos h]⟩
  · intro r hr
    rw [NewResponder_eq hkey] at hr
    split at hr
    · cases hr
    · split at hr
      · cases hr
      · cases hr
        exact ⟨rfl, rfl, rfl⟩
  · exact ⟨.lengthNotPositive 0, by rw [NewResponder_eq hkey]; simp⟩
  · exact ⟨.lengthTooLarge 20 19 ModeCode, by
      rw [NewResponder_eq hkey, lengthMaxOf_code]; simp⟩
  · exact ⟨.lengthTooLarge 24 23 ModePhrase, by
      rw [NewResponder_eq hkey, lengthMaxOf_phrase]; simp⟩
  · exact ⟨{ privKey := key, mode := ModeCode, length := 19 }, by
      rw [NewResponder_eq hkey, lengthMaxOf_code]; simp⟩
  · exact ⟨{ privKey := key, mode := ModePhrase, length := 23 }, by
      rw [NewResponder_eq hkey, lengthMaxOf_phrase]; simp⟩

/-- Witness for C4: the key 1..32 in code mode and length 9. -/
theorem NewResponder_error_iff_witness :
    sampleKey.length = 32 ∧
    ((∃ e, NewResponder sampleKey ModeCode 9 = .error e) ↔
        ((9 : Int) ≤ 0 ∨ (9 : Int) > (if ModeCode = ModeCode then 19 else 23))) :=
  ⟨by decide, (NewResponder_error_iff sampleKey ModeCode 9 (by decide) (Or.inl rfl)).1⟩

/-- What a successful `NewResponder` tells about its arguments and its
result. -/
theorem NewResponder_ok_inv {key : List Byte} {mode : Mode} {length : Int} {r : Responder}
    (hr : NewResponder key mode length = .ok r) :
    key.length = 32 ∧ r = { privKey := key, mode := mode, length := length } ∧
      0 < length ∧ length ≤ lengthMaxOf mode := by
  have hkey : key.length = 32 := by
    by_contra hne
    simp [NewResponder, newPrivateKey, hne] at hr
  rw [NewResponder_eq hkey] at hr
  by_cases h0 : length ≤ 0
  · rw [if_pos h0] at hr
    cases hr
  · rw [if_neg h0] at hr
    by_cases h1 : length > lengthMaxOf mode
    · rw [if_pos h1] at hr
      cases hr
    · rw [if_neg h1] at hr
      cases hr
      exact ⟨hkey, rfl, not_le.mp h0, not_lt.mp h1⟩

/-- A Responder built by `NewResponder` is in one of the two modes. -/
theorem NewResponder_mode {key : List Byte} {mode : Mode} {length : Int} {r : Responder}
    (hr : NewResponder key mode length = .ok r) :
    r.mode = ModeCode ∨ r.mode = ModePhrase := by
  obtain ⟨_, hreq, hpos, hmax⟩ := NewResponder_ok_inv hr
  subst hreq
  by_cases hc : mode = ModeCode
  · exact Or.inl hc
  · by_cases hp : mode = ModePhrase
    · exact Or.inr hp
    · exfalso
      simp only [lengthMaxOf, if_neg hc, if_neg hp] at hmax
      omega

/-! ## Response -/

/-- Unfolding of `Response` once the challenge is a 32-byte key the agreement
accepts. -/
theorem Response_of_secret (P : Primitives) (wl : List GoString) (r : Responder)
    (payload challenge : List Byte) (l : Int) {secret : List Byte}
    (hlen : challenge.length = 32) (hs : P.ecdh r.privKey challenge = some secret) :
    (Response P wl r payload challenge l).2 =
      if r.mode = ModeCode then
        formatCodeNumeric (P.blake2s256 secret (domainTag ++ payload)) r.length
      else if r.mode = ModePhrase then
        formatCodeBIP39 wl (P.blake2s256 secret (domainTag ++ payload)) r.length
      else .ret ([], some (.unsupportedMode r.mode)) := by
  have h32 : secret.length = 32 := P.ecdh_size _ _ _ hs
  have hk : blake2sNew256 secret = some secret := by
    simp [blake2sNew256, h32]
  simp only [Response, newPublicKey, if_pos hlen, hs, hk]

/-- C1: for a Responder `r` returned by `NewResponder` and a challenge on
which the X25519 agreement succeeds with shared secret `secret`,
`Response` ends exactly as the encoder selected by `r.mode` ends on
`(D, r.length)` (`formatCodeNumeric` for `code`, `formatCodeBIP39` for
`phrase`), where `D` is the 32-byte BLAKE2s-256 digest keyed with `secret`
of the 17 bytes `de.n621.pbotp.v2`, zero byte included, followed by the
payload; the argument `l` plays no part. -/
theorem Response_eq_encoder (P : Primitives) (wl : List GoString) (key : List Byte)
    (mode : Mode) (length : Int) (r : Responder) (payload challenge : List Byte) (l : Int)
    (secret : List Byte)
    (hr : NewResponder key mode length = .ok r)
    (hlen : challenge.length = 32)
    (hs : P.ecdh r.privKey challenge = some secret) :
    (r.mode = ModeCode ∨ r.mode = ModePhrase)
      ∧ (Response P wl r payload challenge l).2 =
          (if r.mode = ModeCode then
            formatCodeNumeric (P.blake2s256 secret (domainTag ++ payload)) r.length
          else
            formatCodeBIP39 wl (P.blake2s256 secret (domainTag ++ payload)) r.length)
      ∧ (P.blake2s256 secret (domainTag ++ payload)).length = 32
      ∧ domainTag.length = 17
      ∧ domainTag.map (fun b => Char.ofNat b.val) = "de.n621.pbotp.v2".toList ++ [Char.ofNat 0]
      ∧ (r.privKey = key ∧ r.mode = mode ∧ r.length = length)
      ∧ (∀ l2, Response P wl r payload challenge l2 = Response P wl r payload challenge l) := by
  have hmode := NewResponder_mode hr
  obtain ⟨_, hreq, _, _⟩ := NewResponder_ok_inv hr
  refine ⟨hmode, ?_, P.blake2s256_size _ _, by decide, by decide, ?_, fun _ => rfl⟩
  · rw [Response_of_secret P wl r payload challenge l hlen hs]
    rcases hmode with h | h
    · rw [if_pos h, if_pos h]
    · have hne : ¬ r.mode = ModeCode := by
        rw [h]; decide
      rw [if_neg hne, if_neg hne, if_pos h]
  · subst hreq
    exact ⟨rfl, rfl, rfl⟩

/-- Witness for C1: the sample primitives, a code Responder of length 9
on the key 1..32, payload `[1, 2, 3]` and the challenge 1..32. -/
theorem Response_eq_encoder_witness :
    NewResponder sampleKey ModeCode 9
        = .ok { privKey := sampleKey, mode := ModeCode, length := 9 }
      ∧ (Response samplePrimitives sampleWordList
            { privKey := sampleKey, mode := ModeCode, length := 9 } [1, 2, 3] sampleKey 0).2 =
          formatCodeNumeric (samplePrimitives.blake2s256 sampleKey (domainTag ++ [1, 2, 3])) 9 :=
  ⟨rfl,
    (Response_eq_encoder samplePrimitives sampleWordList sampleKey ModeCode 9
      { privKey := sampleKey, mode := ModeCode, length := 9 } [1, 2, 3] sampleKey 0 sampleKey
      rfl (by decide) (by decide)).2.1⟩

/-- C8: when the challenge is not exactly 32 bytes long, or the X25519
agreement rejects it, `Response` returns the empty string together with a
non-nil error (`loading challenge` in the first case, `x25519` in the
second) and leaves the Responder as it was. -/
theorem Response_invalid_challenge (P : Primitives) (wl : List GoString) (r : Responder)
    (payload challenge : List Byte) (l : Int)
    (h : challenge.length ≠ 32 ∨ P.ecdh r.privKey challenge = none) :
    (∃ e, (Response P wl r payload challenge l).2 = .ret ([], some e)
        ∧ (e = .loadingChallenge ∨ e = .x25519))
      ∧ (challenge.length ≠ 32 →
          (Response P wl r payload challenge l).2 = .ret ([], some .loadingChallenge))
      ∧ (Response P wl r payload challenge l).1 = r := by
  have hbad : challenge.length ≠ 32 →
      (Response P wl r payload challenge l).2 = .ret ([], some .loadingChallenge) := by
    intro hne
    simp only [Response, newPublicKey, if_neg hne]
  refine ⟨?_, hbad, rfl⟩
  by_cases hlen : challenge.length = 32
  · rcases h with h | h
    · exact absurd hlen h
    · exact ⟨.x25519, by simp only [Response, newPublicKey, if_pos hlen, h], Or.inr rfl⟩
  · exact ⟨.loadingChallenge, hbad hlen, Or.inl rfl⟩

/-- Witness for C8: a 3-byte challenge. -/
theorem Response_invalid_challenge_witness :
    ∃ e, (Response samplePrimitives sampleWordList
            { privKey := sampleKey, mode := ModePhrase, length := 4 } [1, 2, 3] [7, 7, 7] 0).2
          = .ret ([], some e) ∧ (e = .loadingChallenge ∨ e = .x25519) :=
  (Response_invalid_challenge samplePrimitives sampleWordList
    { privKey := sampleKey, mode := ModePhrase, length := 4 } [1, 2, 3] [7, 7, 7] 0
    (Or.inl (by decide))).1

/-! ## formatCodeBIP39 -/

theorem beValue_reverse (l : List Byte) : beValue l.reverse = leValue l := by
  unfold beValue
  rw [List.foldl_reverse]
  induction l with
  | nil => rfl
  | cons b bs ih =>
    simp only [List.foldr_cons, leValue, ih]
    omega

theorem leValue_eq_sum (l : List Byte) :
    leValue l = ∑ j ∈ Finset.range l.length, (l.getD j 0).val * 256 ^ j := by
  induction l with
  | nil => simp [leValue]
  | cons b bs ih =>
    rw [List.length_cons, Finset.sum_range_succ', leValue, ih, Finset.mul_sum]
    simp only [List.getD_cons_succ, List.getD_cons_zero, pow_zero, mul_one, pow_succ]
    rw [add_comm]
    congr 1
    apply Finset.sum_congr rfl
    intro j _
    ring

theorem int64OfNat_of_lt {x : Nat} (h : x < 2 ^ 63) : int64OfNat x = (x : Int) := by
  have h1 : x % 2 ^ 64 = x := Nat.mod_eq_of_lt (by omega)
  simp only [int64OfNat, h1, if_pos h]

theorem land_mask_eq_mod (n : Nat) : n &&& (2048 - 1) = n % 2048 :=
  Nat.and_pow_two_sub_one_eq_mod n 11

theorem idxVal_eq (n : Nat) : int64OfNat (n &&& (2048 - 1)) = ((n % 2048 : Nat) : Int) := by
  rw [land_mask_eq_mod]
  exact int64OfNat_of_lt (by omega)

theorem take_succ_set {α : Type} (l : List α) (i : Nat) (w : α) (h : i < l.length) :
    (l.set i w).take (i + 1) = l.take i ++ [w] := by
  induction l generalizing i with
  | nil => simp at h
  | cons a t ih =>
    cases i with
    | zero => simp
    | succ k =>
      simp only [List.length_cons, Nat.add_lt_add_iff_right] at h
      simp [ih k h]

/-- One pass of the loop body when the word list has 2048 entries: the
guard does not fire. -/
theorem bip39Loop_succ {wl : List GoString} (hwl : wl.length = 2048)
    (fuel i n : Nat) (words : List GoString) :
    bip39Loop wl (fuel + 1) i n words =
      bip39Loop wl fuel (i + 1) (n >>> 11) (words.set i (wl.getD (n % 2048) [])) := by
  have hguard : ¬ (((n % 2048 : Nat) : Int) < 0 ∨
      ((n % 2048 : Nat) : Int) ≥ (wl.length : Int)) := by
    rw [hwl]
    omega
  simp only [bip39Loop, idxVal_eq, if_neg hguard, Int.toNat_ofNat]

/-- The word extracted at step `j` from the integer `n`. -/
theorem bip39Loop_eq {wl : List GoString} (hwl : wl.length = 2048) :
    ∀ (fuel i n : Nat) (words : List GoString), i + fuel = words.length →
      bip39Loop wl fuel i n words =
        .ok (words.take i ++
          (List.range fuel).map (fun j => wl.getD (n / 2 ^ (11 * j) % 2048) [])) := by
  intro fuel
  induction fuel with
  | zero =>
    intro i n words h
    simp only [bip39Loop, List.range_zero, List.map_nil, List.append_nil]
    rw [show i = words.length by omega, List.take_length]
  | succ k ih =>
    intro i n words h
    rw [bip39Loop_succ hwl, ih (i + 1) (n >>> 11) _ (by rw [List.length_set]; omega),
      take_succ_set _ _ _ (by omega), List.range_succ_eq_map, List.map_cons, List.map_map]
    simp only [List.append_assoc, List.singleton_append, Nat.mul_zero, pow_zero, Nat.div_one]
    congr 3
    apply List.map_congr_left
    intro j _
    simp only [Function.comp, Nat.shiftRight_eq_div_pow, Nat.div_div_eq_div_mul]
    rw [show 11 * (j + 1) = 11 + 11 * j by ring, pow_add]

theorem bip39Loop_ok {wl : List GoString} (hwl : wl.length = 2048) :
    ∀ (fuel i n : Nat) (words : List GoString),
      ∃ ws, bip39Loop wl fuel i n words = .ok ws := by
  intro fuel
  induction fuel with
  | zero => intro i n words; exact ⟨words, rfl⟩
  | succ k ih =>
    intro i n words
    rw [bip39Loop_succ hwl]
    exact ih _ _ _

/-- The words `formatCodeBIP39` selects: entry `N / 2 ^ (11 i) mod 2048`
of the word list for `i = 0, ..., count - 1`. -/
theorem formatCodeBIP39_eq {wl : List GoString} (hwl : wl.length = 2048) (sig : List Byte)
    {length : Int} (h0 : 0 ≤ length) (hmax : length ≤ 2 ^ 44) :
    formatCodeBIP39 wl sig length =
      .ret (List.intercalate [' '] ((List.range length.toNat).map
        (fun i => wl.getD (leValue sig / 2 ^ (11 * i) % 2048) [])), none) := by
  have hmake : ¬ (length < 0 ∨ stringSize * length > maxAlloc) := by
    simp only [stringSize, maxAlloc]
    omega
  simp only [formatCodeBIP39, if_neg hmake, beValue_reverse]
  rw [bip39Loop_eq hwl _ _ _ _ (by simp)]
  simp [joinSpace]


theorem sampleWordList_length : sampleWordList.length = 2048 := by
  simp [sampleWordList]

theorem getD_mem_of_lt {wl : List GoString} {k : Nat} (h : k < wl.length) :
    wl.getD k [] ∈ wl := by
  rw [List.getD_eq_getElem _ _ h]
  exact List.getElem_mem h

/-- C3: for a 32-byte digest and a length in 1..23, with the 2048-entry
word list, `formatCodeBIP39` returns the words `wordList[idx_0]`, ...,
`wordList[idx_(length-1)]` joined by single spaces in that order, where
`idx_i = floor(N / 2 ^ (11 i)) mod 2048` and `N` is the sum of
`digest[j] * 256 ^ j` over `j < 32`, which is the byte-reversed digest
read as a big-endian integer; the first word is the one indexed by the
lowest 11 bits of `N`. -/
theorem formatCodeBIP39_words (wl : List GoString) (digest : List Byte) (length : Int)
    (hwl : wl.length = 2048) (hd : digest.length = 32) (h1 : 1 ≤ length) (h2 : length ≤ 23) :
    formatCodeBIP39 wl digest length =
        .ret (List.intercalate [' '] ((List.range length.toNat).map
          (fun i => wl.getD (leValue digest / 2 ^ (11 * i) % 2048) [])), none)
      ∧ leValue digest = ∑ j ∈ Finset.range 32, (digest.getD j 0).val * 256 ^ j
      ∧ beValue digest.reverse = leValue digest
      ∧ (∀ i, leValue digest / 2 ^ (11 * i) % 2048 < wl.length)
      ∧ ((List.range length.toNat).map
          (fun i => wl.getD (leValue digest / 2 ^ (11 * i) % 2048) [])).head?
          = some (wl.getD (leValue digest % 2 ^ 11) []) := by
  refine ⟨formatCodeBIP39_eq hwl digest (by omega) (by omega), ?_, beValue_reverse digest,
    ?_, ?_⟩
  · rw [leValue_eq_sum, hd]
  · intro i
    rw [hwl]
    exact Nat.mod_lt _ (by norm_num)
  · obtain ⟨k, hk⟩ : ∃ k, length.toNat = k + 1 := ⟨length.toNat - 1, by omega⟩
    rw [hk, List.range_succ_eq_map]
    simp

set_option maxRecDepth 100000 in
/-- Witness for C3: the sample digest (N = 123456789) and four words. -/
theorem formatCodeBIP39_words_witness :
    formatCodeBIP39 sampleWordList sampleDigest 4 = .ret ("w1301 w889 w29 w0".toList, none) :=
  (formatCodeBIP39_words sampleWordList sampleDigest 4 sampleWordList_length
    (by decide) (by decide) (by decide)).1.trans (by decide)

/-- C7: for a 32-byte digest and a length in 1..23, with a 2048-entry
word list of non-empty space-free words, splitting the phrase
`formatCodeBIP39` returns at the space character yields exactly `length`
tokens, each of them non-empty and an entry of the word list. -/
theorem formatCodeBIP39_tokens (wl : List GoString) (digest : List Byte) (length : Int)
    (hwl : wl.length = 2048) (hws : ∀ w ∈ wl, w ≠ [] ∧ ' ' ∉ w)
    (_hd : digest.length = 32) (h1 : 1 ≤ length) (h2 : length ≤ 23) :
    ∃ s, formatCodeBIP39 wl digest length = .ret (s, none)
      ∧ ((s.splitOn ' ').length : Int) = length
      ∧ ∀ t ∈ s.splitOn ' ', t ≠ [] ∧ t ∈ wl := by
  refine ⟨_, formatCodeBIP39_eq hwl digest (by omega) (by omega), ?_⟩
  have hmem : ∀ t ∈ (List.range length.toNat).map
      (fun i => wl.getD (leValue digest / 2 ^ (11 * i) % 2048) []), t ∈ wl := by
    intro t ht
    obtain ⟨i, _, rfl⟩ := List.mem_map.mp ht
    exact getD_mem_of_lt (by rw [hwl]; exact Nat.mod_lt _ (by norm_num))
  have hne : (List.range length.toNat).map
      (fun i => wl.getD (leValue digest / 2 ^ (11 * i) % 2048) []) ≠ [] := by
    intro h
    have hl := congrArg List.length h
    simp only [List.length_map, List.length_range, List.length_nil] at hl
    omega
  rw [List.splitOn_intercalate _ ' ' (fun l hl => (hws l (hmem l hl)).2) hne]
  refine ⟨?_, fun t ht => ⟨(hws t (hmem t ht)).1, hmem t ht⟩⟩
  simp only [List.length_map, List.length_range]
  omega


/-! ## Decimal digits -/

theorem digitChar_isDigit {k : Nat} (h : k < 10) : (Nat.digitChar k).isDigit = true := by
  interval_cases k <;> decide

theorem toDigitsCore_isDigit :
    ∀ (fuel n : Nat) (ds : List Char), (∀ c ∈ ds, c.isDigit = true) →
      ∀ c ∈ Nat.toDigitsCore 10 fuel n ds, c.isDigit = true := by
  intro fuel
  induction fuel with
  | zero => intro n ds h; simpa [Nat.toDigitsCore] using h
  | succ k ih =>
    intro n ds h
    have hd : ∀ c ∈ Nat.digitChar (n % 10) :: ds, c.isDigit = true := by
      intro c hc
      rcases List.mem_cons.mp hc with rfl | hc
      · exact digitChar_isDigit (Nat.mod_lt _ (by norm_num))
      · exact h c hc
    unfold Nat.toDigitsCore
    by_cases h0 : n / 10 = 0
    · simpa [h0] using hd
    · simp only [h0, if_false]
      exact ih _ _ hd

theorem toDigitsCore_length :
    ∀ (fuel n L : Nat) (ds : List Char), 1 ≤ L → n < 10 ^ L →
      (Nat.toDigitsCore 10 fuel n ds).length ≤ ds.length + L := by
  intro fuel
  induction fuel with
  | zero => intro n L ds _ _; simp [Nat.toDigitsCore]
  | succ k ih =>
    intro n L ds hL hn
    unfold Nat.toDigitsCore
    by_cases h0 : n / 10 = 0
    · simp only [h0, if_true, List.length_cons]
      omega
    · simp only [h0, if_false]
      obtain ⟨M, rfl⟩ : ∃ M, L = M + 1 := ⟨L - 1, by omega⟩
      have hM : 1 ≤ M := by
        rcases Nat.eq_zero_or_pos M with rfl | hpos
        · exfalso
          apply h0
          exact Nat.div_eq_of_lt (by simpa using hn)
        · exact hpos
      have hdiv : n / 10 < 10 ^ M := by
        rw [Nat.div_lt_iff_lt_mul (by norm_num)]
        rw [pow_succ] at hn
        exact hn
      have := ih (n / 10) M (Nat.digitChar (n % 10) :: ds) hM hdiv
      simp only [List.length_cons] at this
      omega

theorem decimal_isDigit (v : Nat) : ∀ c ∈ decimal v, c.isDigit = true :=
  toDigitsCore_isDigit _ _ _ (by simp)

theorem decimal_length_le {v L : Nat} (hL : 1 ≤ L) (hv : v < 10 ^ L) :
    (decimal v).length ≤ L := by
  have := toDigitsCore_length (v + 1) v L [] hL hv
  simpa [decimal, Nat.toDigits] using this

/-- For a width in `1 .. 10 ^ 6` and a value below `10 ^ width`, the
padded string has exactly `width` characters, all of them digits. -/
theorem sprintfZeroPad_spec {L v : Nat} (hL : 1 ≤ L) (hL2 : L ≤ 1000000) (hv : v < 10 ^ L) :
    sprintfZeroPad (L : Int) v = List.replicate (L - (decimal v).length) '0' ++ decimal v
      ∧ (sprintfZeroPad (L : Int) v).length = L
      ∧ ∀ c ∈ sprintfZeroPad (L : Int) v, c.isDigit = true := by
  have h1 : ¬ ((L : Int) > 1000000 ∨ (L : Int) < -1000000) := by omega
  have h2 : ¬ ((L : Int) < 0) := by omega
  have heq : sprintfZeroPad (L : Int) v =
      List.replicate (L - (decimal v).length) '0' ++ decimal v := by
    simp only [sprintfZeroPad, if_neg h1, if_neg h2, Int.toNat_ofNat]
  have hlen := decimal_length_le hL hv
  refine ⟨heq, ?_, ?_⟩
  · rw [heq, List.length_append, List.length_replicate]
    omega
  · rw [heq]
    intro c hc
    rcases List.mem_append.mp hc with hc | hc
    · rw [(List.mem_replicate.mp hc).2]
      decide
    · exact decimal_isDigit v c hc

/-! ## The modulus -/

theorem modulusLoop_one {k : Nat} (hk : k ≤ 19) : modulusLoop k 1 = 10 ^ k := by
  interval_cases k <;> rfl


theorem ne_space_of_isDigit {c : Char} (h : c.isDigit = true) : c ≠ ' ' := by
  rintro rfl
  revert h
  decide

theorem sampleWordList_words : ∀ w ∈ sampleWordList, w ≠ [] ∧ ' ' ∉ w := by
  intro w hw
  obtain ⟨i, _, rfl⟩ := List.mem_map.mp hw
  refine ⟨List.cons_ne_nil _ _, ?_⟩
  intro hmem
  rcases List.mem_cons.mp hmem with h | h
  · revert h
    decide
  · exact ne_space_of_isDigit (decimal_isDigit i _ h) rfl

/-- Witness for C7: the sample digest and four words. -/
theorem formatCodeBIP39_tokens_witness :
    ∃ s, formatCodeBIP39 sampleWordList sampleDigest 4 = .ret (s, none)
      ∧ ((s.splitOn ' ').length : Int) = 4
      ∧ ∀ t ∈ s.splitOn ' ', t ≠ [] ∧ t ∈ sampleWordList :=
  formatCodeBIP39_tokens sampleWordList sampleDigest 4 sampleWordList_length
    sampleWordList_words (by decide) (by decide) (by decide)

/-- The index guard of `formatCodeBIP39` never produces its error when
the word list has 2048 entries, whatever the length. -/
theorem formatCodeBIP39_ret_nil {wl : List GoString} (hwl : wl.length = 2048)
    (sig : List Byte) (length : Int) (s : GoString) (e : Err) :
    formatCodeBIP39 wl sig length ≠ .ret (s, some e) := by
  by_cases hmake : length < 0 ∨ stringSize * length > maxAlloc
  · simp only [formatCodeBIP39, if_pos hmake]
    intro h
    cases h
  · have h0 : 0 ≤ length := by
      by_contra hneg
      exact hmake (Or.inl (by omega))
    have hmax : length ≤ 2 ^ 44 := by
      by_contra hbig
      apply hmake
      right
      simp only [stringSize, maxAlloc]
      omega
    rw [formatCodeBIP39_eq hwl sig h0 hmax]
    intro h
    injection h with h
    have hsnd := congrArg Prod.snd h
    cases hsnd

/-- Beyond `2 ^ 44` strings `make([]string, length)` panics. -/
theorem formatCodeBIP39_makeslice_panic (wl : List GoString) (sig : List Byte)
    {length : Int} (hbig : 2 ^ 44 < length) :
    formatCodeBIP39 wl sig length = .panic .makeSlice := by
  have hmake : length < 0 ∨ stringSize * length > maxAlloc := by
    right
    simp only [stringSize, maxAlloc]
    omega
  simp only [formatCodeBIP39, if_pos hmake]

/-- Counterexample to C10: with a 2048-entry word list and the length
`2 ^ 62`, which is `>= 0`, `formatCodeBIP39` does not return a nil error:
`make([]string, length)` panics with `makeslice: len out of range`. -/
theorem formatCodeBIP39_huge_length_counterexample :
    sampleWordList.length = 2048
      ∧ (0 : Int) ≤ 2 ^ 62
      ∧ formatCodeBIP39 sampleWordList sampleDigest (2 ^ 62) = .panic .makeSlice
      ∧ ¬ ∃ s, formatCodeBIP39 sampleWordList sampleDigest (2 ^ 62) = .ret (s, none) := by
  have hpanic : formatCodeBIP39 sampleWordList sampleDigest (2 ^ 62) = .panic .makeSlice :=
    formatCodeBIP39_makeslice_panic sampleWordList sampleDigest (by decide)
  refine ⟨sampleWordList_length, by decide, hpanic, ?_⟩
  rintro ⟨s, hs⟩
  rw [hpanic] at hs
  cases hs

/-- C10, amended: with a 2048-entry word list, for every byte string
`sig` and every length `>= 0`, every index `formatCodeBIP39` computes
(`n AND 2047`, read through `Int64`) lies in `[0, 2047]`, the loop never
takes the `bip39 index out of range` exit, and the function never
returns a non-nil error; it returns a nil error for every length in
`0 .. 23`, and beyond `2 ^ 44` it does not return at all:
`make([]string, length)` panics. -/
theorem formatCodeBIP39_no_index_error (wl : List GoString) (sig : List Byte) (length : Int)
    (hwl : wl.length = 2048) (h0 : 0 ≤ length) :
    (∀ n : Nat, 0 ≤ int64OfNat (n &&& (2048 - 1)) ∧ int64OfNat (n &&& (2048 - 1)) ≤ 2047)
      ∧ (∀ (fuel i n : Nat) (words : List GoString),
          bip39Loop wl fuel i n words ≠ .error .bip39IndexOutOfRange)
      ∧ (∀ (s : GoString) (e : Err), formatCodeBIP39 wl sig length ≠ .ret (s, some e))
      ∧ (length ≤ 23 → ∃ s, formatCodeBIP39 wl sig length = .ret (s, none))
      ∧ (2 ^ 44 < length → formatCodeBIP39 wl sig length = .panic .makeSlice) := by
  refine ⟨?_, ?_, formatCodeBIP39_ret_nil hwl sig length, ?_, ?_⟩
  · intro n
    rw [idxVal_eq]
    omega
  · intro fuel i n words
    obtain ⟨ws, hws⟩ := bip39Loop_ok hwl fuel i n words
    rw [hws]
    intro h
    cases h
  · intro h23
    exact ⟨_, formatCodeBIP39_eq hwl sig h0 (by omega)⟩
  · intro hbig
    exact formatCodeBIP39_makeslice_panic wl sig hbig

/-- Witness for C10 amended: the sample digest and length 23. -/
theorem formatCodeBIP39_no_index_error_witness :
    ∃ s, formatCodeBIP39 sampleWordList sampleDigest 23 = .ret (s, none) :=
  (formatCodeBIP39_no_index_error sampleWordList sampleDigest 23 sampleWordList_length
    (by decide)).2.2.2.1 (by decide)


/-! ## formatCodeNumeric -/

/-- Unfolding of `formatCodeNumeric` on a digest of at least 8 bytes and a length in
1..19: the modulus is `10 ^ length`, and what remains is the grouping
loop over the zero-padded code. -/
theorem formatCodeNumeric_unfold (digest : List Byte) {n : Nat} (hd : 8 ≤ digest.length)
    (h2 : n ≤ 19) :
    formatCodeNumeric digest (n : Int) =
      match groupLoop (paddedCode digest n).length (pickGroupSize n [5, 4, 3] 0)
          (paddedCode digest n) 0 [] with
      | .panic p => .panic p
      | .ret s => .ret (s, none) := by
  have hm : modulusLoop n 1 = 10 ^ n := modulusLoop_one h2
  have hne : ¬ (10 ^ n = 0) := by positivity
  simp only [formatCodeNumeric, paddedCode, if_neg (not_lt.mpr hd), Int.toNat_ofNat, hm,
    if_neg hne]

theorem paddedCode_spec (digest : List Byte) {n : Nat} (h1 : 1 ≤ n) (h2 : n ≤ 19) :
    (paddedCode digest n).length = n ∧ ∀ c ∈ paddedCode digest n, c.isDigit = true := by
  have hv : leValue (digest.take 8) % 10 ^ n < 10 ^ n := Nat.mod_lt _ (by positivity)
  have h := sprintfZeroPad_spec h1 (by omega) hv
  simpa [paddedCode] using h.2

theorem leValue_take8_eq_sum (digest : List Byte) (hd : 8 ≤ digest.length) :
    leValue (digest.take 8) = ∑ j ∈ Finset.range 8, (digest.getD j 0).val * 256 ^ j := by
  rw [leValue_eq_sum, List.length_take, Nat.min_eq_left hd]
  apply Finset.sum_congr rfl
  intro j hj
  have hj8 : j < 8 := Finset.mem_range.mp hj
  simp only [List.getD_eq_getElem?_getD, List.getElem?_take_of_lt hj8]

theorem paddedCode_eq (digest : List Byte) {n : Nat} (h1 : 1 ≤ n) (h2 : n ≤ 19) :
    paddedCode digest n =
      List.replicate (n - (decimal (leValue (digest.take 8) % 10 ^ n)).length) '0'
        ++ decimal (leValue (digest.take 8) % 10 ^ n) := by
  have hv : leValue (digest.take 8) % 10 ^ n < 10 ^ n := Nat.mod_lt _ (by positivity)
  have h := (sprintfZeroPad_spec h1 (by omega) hv).1
  simpa [paddedCode] using h

/-- A list is its own table of entries. -/
theorem exists_map_range (l : List Char) (hl : ∀ c ∈ l, c ≠ ' ') :
    ∃ f : Nat → Char, l = (List.range l.length).map f ∧ ∀ i, f i ≠ ' ' := by
  refine ⟨fun i => l.getD i '0', ?_, ?_⟩
  · apply List.ext_getElem
    · simp
    · intro i h1 h2
      simp [List.getElem?_eq_getElem h1]
  · intro i
    by_cases h : i < l.length
    · simp only [List.getD_eq_getElem _ _ h]
      exact hl _ (List.getElem_mem h)
    · simp only [List.getD_eq_default _ _ (not_lt.mp h)]
      decide

/-- With no group size found (`groupSize = 0`), the loop panics as soon
as it reaches the second character. -/
theorem groupLoop_zero_panic (rawLen : Nat) (a b : Char) (rest : List Char) (acc : GoString) :
    groupLoop rawLen 0 (a :: b :: rest) 0 acc = .panic .divideByZero := by
  simp [groupLoop]


set_option maxHeartbeats 1000000 in
/-- The grouping loop on a space-free string of `n` characters with a
group size `g` dividing `n`, for the pairs `(n, g)` that occur for
lengths up to 19. -/
theorem groupLoop_grouped (n g : Nat)
    (hng : (n, g) ∈ [(3, 3), (4, 4), (5, 5), (6, 3), (8, 4), (9, 3), (10, 5), (12, 4),
      (15, 5), (16, 4), (18, 3)])
    (f : Nat → Char) (hf : ∀ i, f i ≠ ' ') :
    groupLoop n g ((List.range n).map f) 0 [] =
        .ret (List.intercalate [' '] (blocks g ((List.range n).map f)))
      ∧ (blocks g ((List.range n).map f)).length = n / g
      ∧ (∀ b ∈ blocks g ((List.range n).map f), b.length = g)
      ∧ (blocks g ((List.range n).map f)).flatten = (List.range n).map f
      ∧ (List.intercalate [' '] (blocks g ((List.range n).map f))).count ' ' = n / g - 1
      ∧ (List.intercalate [' '] (blocks g ((List.range n).map f))).head? ≠ some ' '
      ∧ (List.intercalate [' '] (blocks g ((List.range n).map f))).getLast? ≠ some ' '
      ∧ List.Chain' (fun a b => ¬ (a = ' ' ∧ b = ' '))
          (List.intercalate [' '] (blocks g ((List.range n).map f))) := by
  simp only [List.mem_cons, Prod.mk.injEq, List.mem_singleton, List.not_mem_nil, or_false] at hng
  rcases hng with ⟨rfl, rfl⟩ | ⟨rfl, rfl⟩ | ⟨rfl, rfl⟩ | ⟨rfl, rfl⟩ | ⟨rfl, rfl⟩ | ⟨rfl, rfl⟩ |
    ⟨rfl, rfl⟩ | ⟨rfl, rfl⟩ | ⟨rfl, rfl⟩ | ⟨rfl, rfl⟩ | ⟨rfl, rfl⟩ <;>
  refine ⟨?_, ?_, ?_, ?_, ?_, ?_, ?_, ?_⟩ <;>
  simp [groupLoop, blocks, List.range_succ, List.intercalate, List.count_cons, hf]

/-- The group size the code picks is the first divisor among 5, 4, 3. -/
theorem pickGroupSize_of_firstDivisor {n g : Nat} (h2 : n ≤ 19)
    (hg : firstDivisor (n : Int) = some g) :
    (n, g) ∈ [(0, 5), (3, 3), (4, 4), (5, 5), (6, 3), (8, 4), (9, 3), (10, 5), (12, 4),
        (15, 5), (16, 4), (18, 3)]
      ∧ pickGroupSize (n : Int) [5, 4, 3] 0 = g := by
  interval_cases n <;> norm_num [firstDivisor] at hg <;>
    cases hg <;> decide


/-- C5: for a 32-byte digest and a length in 1..19 whose first divisor
among 5, 4, 3 (in that order) is `g`, `formatCodeNumeric` returns the
`length / g` consecutive `g`-digit blocks of the zero-padded code joined
by single spaces; the output has exactly `length / g - 1` spaces, none of
them leading, trailing or next to another space. The zero-padded code is
the decimal representation of `P mod 10 ^ length` preceded by zeros up to
`length` digits, `P` being the first eight digest bytes read
least-significant byte first. -/
theorem formatCodeNumeric_grouped (digest : List Byte) (length : Int) (g : Nat)
    (hd : digest.length = 32) (h1 : 1 ≤ length) (h2 : length ≤ 19)
    (hg : firstDivisor length = some g) :
    formatCodeNumeric digest length =
        .ret (List.intercalate [' '] (blocks g (paddedCode digest length)), none)
      ∧ paddedCode digest length =
          List.replicate
              (length.toNat - (decimal (leValue (digest.take 8) % 10 ^ length.toNat)).length) '0'
            ++ decimal (leValue (digest.take 8) % 10 ^ length.toNat)
      ∧ leValue (digest.take 8) = ∑ j ∈ Finset.range 8, (digest.getD j 0).val * 256 ^ j
      ∧ ((paddedCode digest length).length : Int) = length
      ∧ (∀ c ∈ paddedCode digest length, c.isDigit = true)
      ∧ ((blocks g (paddedCode digest length)).length : Int) = length / g
      ∧ (∀ b ∈ blocks g (paddedCode digest length), b.length = g)
      ∧ (blocks g (paddedCode digest length)).flatten = paddedCode digest length
      ∧ (((List.intercalate [' '] (blocks g (paddedCode digest length))).count ' ' : Nat) : Int)
          = length / g - 1
      ∧ (List.intercalate [' '] (blocks g (paddedCode digest length))).head? ≠ some ' '
      ∧ (List.intercalate [' '] (blocks g (paddedCode digest length))).getLast? ≠ some ' '
      ∧ List.Chain' (fun a b => ¬ (a = ' ' ∧ b = ' '))
          (List.intercalate [' '] (blocks g (paddedCode digest length))) := by
  obtain ⟨n, rfl⟩ : ∃ n : Nat, length = (n : Int) := ⟨length.toNat, by omega⟩
  have h1n : 1 ≤ n := by omega
  have h2n : n ≤ 19 := by omega
  obtain ⟨hlen, hdig⟩ := paddedCode_spec digest h1n h2n
  obtain ⟨f, hf, hfs⟩ := exists_map_range (paddedCode digest n)
    (fun c hc => ne_space_of_isDigit (hdig c hc))
  rw [hlen] at hf
  obtain ⟨hpair, hpick⟩ := pickGroupSize_of_firstDivisor h2n hg
  have hpair2 : (n, g) ∈ [(3, 3), (4, 4), (5, 5), (6, 3), (8, 4), (9, 3), (10, 5), (12, 4),
      (15, 5), (16, 4), (18, 3)] := by
    rcases List.mem_cons.mp hpair with h | h
    · exfalso
      have := congrArg Prod.fst h
      simp only at this
      omega
    · exact h
  have hgpos : 0 < g := by
    simp only [List.mem_cons, Prod.mk.injEq, List.mem_singleton, List.not_mem_nil,
      or_false] at hpair2
    omega
  obtain ⟨hloop, hbl, hbg, hfl, hcount, hhead, hlast, hchain⟩ :=
    groupLoop_grouped n g hpair2 f hfs
  have hfmt : formatCodeNumeric digest (n : Int) =
      .ret (List.intercalate [' '] (blocks g (paddedCode digest n)), none) := by
    rw [formatCodeNumeric_unfold digest (by omega) h2n, hpick, hlen, hf, hloop]
  have hdiv : 1 ≤ n / g := by
    simp only [List.mem_cons, Prod.mk.injEq, List.mem_singleton, List.not_mem_nil,
      or_false] at hpair2
    rcases hpair2 with ⟨rfl, rfl⟩ | ⟨rfl, rfl⟩ | ⟨rfl, rfl⟩ | ⟨rfl, rfl⟩ | ⟨rfl, rfl⟩ |
      ⟨rfl, rfl⟩ | ⟨rfl, rfl⟩ | ⟨rfl, rfl⟩ | ⟨rfl, rfl⟩ | ⟨rfl, rfl⟩ | ⟨rfl, rfl⟩ <;> decide
  refine ⟨hfmt, by simpa using paddedCode_eq digest h1n h2n,
    leValue_take8_eq_sum digest (by omega), by rw [hlen], hdig, ?_, ?_, ?_, ?_, ?_, ?_, ?_⟩
  · rw [hf, hbl]
    norm_cast
  · rw [hf]
    exact hbg
  · rw [hf]
    exact hfl
  · rw [hf, hcount]
    have : ((n / g : Nat) : Int) = (n : Int) / (g : Int) := by norm_cast
    omega
  · rw [hf]
    exact hhead
  · rw [hf]
    exact hlast
  · rw [hf]
    exact hchain

/-- Witness for C5: the sample digest (P = 123456789) at length 9. -/
theorem formatCodeNumeric_grouped_witness :
    formatCodeNumeric sampleDigest 9 = .ret ("123 456 789".toList, none) :=
  (formatCodeNumeric_grouped sampleDigest 9 3 (by decide) (by decide) (by decide)
    (by decide)).1.trans (by decide)

/-- C6, what the code does: for a digest of 32 bytes and a length in
1..19 that none of 5, 4, 3 divides, the group size stays 0;
`formatCodeNumeric` returns the one-digit code when the length is 1 and
panics with `integer divide by zero` in the separator test for every
other such length (2, 7, 11, 13, 14, 17, 19). -/
theorem formatCodeNumeric_ungrouped (digest : List Byte) (length : Int)
    (hd : digest.length = 32) (h1 : 1 ≤ length) (h2 : length ≤ 19)
    (hg : firstDivisor length = none) :
    pickGroupSize length [5, 4, 3] 0 = 0
      ∧ length ∈ [1, 2, 7, 11, 13, 14, 17, 19]
      ∧ (length = 1 → formatCodeNumeric digest length = .ret (paddedCode digest length, none))
      ∧ (length ≠ 1 → formatCodeNumeric digest length = .panic .divideByZero) := by
  obtain ⟨n, rfl⟩ : ∃ n : Nat, length = (n : Int) := ⟨length.toNat, by omega⟩
  have h1n : 1 ≤ n := by omega
  have h2n : n ≤ 19 := by omega
  obtain ⟨hlen, _⟩ := paddedCode_spec digest h1n h2n
  have hpick : pickGroupSize (n : Int) [5, 4, 3] 0 = 0 ∧
      (n : Int) ∈ [1, 2, 7, 11, 13, 14, 17, 19] := by
    interval_cases n <;> first | exact absurd hg (by decide) | decide
  refine ⟨hpick.1, hpick.2, ?_, ?_⟩
  · intro hone
    have hn : n = 1 := by omega
    subst hn
    rw [formatCodeNumeric_unfold digest (by omega) h2n, hpick.1]
    match hraw : paddedCode digest (1 : Nat), hlen with
    | [a], _ => simp [groupLoop]
  · intro hne
    rw [formatCodeNumeric_unfold digest (by omega) h2n, hpick.1]
    match hraw : paddedCode digest n, hlen with
    | [], h => simp at h; omega
    | [a], h => simp at h; omega
    | a :: b :: rest, _ => rw [groupLoop_zero_panic]

/-- Witness for C6: the sample digest at length 7. -/
theorem formatCodeNumeric_ungrouped_witness :
    formatCodeNumeric sampleDigest 7 = .panic .divideByZero :=
  (formatCodeNumeric_ungrouped sampleDigest 7 (by decide) (by decide) (by decide)
    (by decide)).2.2.2 (by decide)

/-- C2, where the code departs from it: on the sample digest
(P = 123456789), each of the lengths 2, 7, 11, 13, 14, 17, 19 makes
`formatCodeNumeric` panic with `integer divide by zero` instead of
returning the zero-padded code, while length 9 returns `123 456 789`. -/
theorem formatCodeNumeric_panics_on_sample :
    ([2, 7, 11, 13, 14, 17, 19] : List Int).map (formatCodeNumeric sampleDigest)
        = List.replicate 7 (.panic .divideByZero)
      ∧ formatCodeNumeric sampleDigest 9 = .ret ("123 456 789".toList, none) := by
  decide

/-! ## Response: the per-call length and the mode branch -/

/-- C11: for every Responder, payload and challenge and any two integers
`l1`, `l2`, `Response` ends the same way with `l1` as with `l2` (same
string, same error or panic, same Responder afterwards): the per-call
length argument is never read, only the stored `r.length` is. -/
theorem Response_length_ignored (P : Primitives) (wl : List GoString) (r : Responder)
    (payload challenge : List Byte) (l1 l2 : Int) :
    Response P wl r payload challenge l1 = Response P wl r payload challenge l2 :=
  rfl

/-- `formatCodeNumeric` never returns a non-nil error. -/
theorem formatCodeNumeric_no_error (sig : List Byte) (length : Int) (s : GoString) (e : Err) :
    formatCodeNumeric sig length ≠ .ret (s, some e) := by
  unfold formatCodeNumeric
  intro h
  split at h
  · cases h
  · simp only at h
    split at h
    · cases h
    · split at h
      · cases h
      · injection h with h
        have := congrArg Prod.snd h
        cases this

/-- The only error `formatCodeBIP39` returns is the index guard. -/
theorem formatCodeBIP39_error (wl : List GoString) (sig : List Byte) (length : Int)
    (s : GoString) (e : Err) (h : formatCodeBIP39 wl sig length = .ret (s, some e)) :
    e = .bip39IndexOutOfRange := by
  unfold formatCodeBIP39 at h
  simp only at h
  split at h
  · cases h
  · split at h
    · rename_i e2 _
      have hloop : ∀ (fuel i n : Nat) (words : List GoString) (e3 : Err),
          bip39Loop wl fuel i n words = .error e3 → e3 = .bip39IndexOutOfRange := by
        intro fuel
        induction fuel with
        | zero => intro i n words e3 h3; cases h3
        | succ k ih =>
          intro i n words e3 h3
          unfold bip39Loop at h3
          simp only at h3
          split at h3
          · cases h3
            rfl
          · exact ih _ _ _ _ h3
      injection h with h
      have h2 := congrArg Prod.snd h
      simp only [Option.some.injEq] at h2
      rw [← h2]
      exact hloop _ _ _ _ _ (by assumption)
    · injection h with h
      have := congrArg Prod.snd h
      cases this

/-- C14: a Responder that `NewResponder` returns is in mode `code` with
`1 <= length <= 19` or in mode `phrase` with `1 <= length <= 23`; for any
other mode `NewResponder` fails for every length; and `Response` on such
a Responder never returns through its `unsupported mode` branch. -/
theorem NewResponder_invariant (key : List Byte) (mode : Mode) (length : Int) (r : Responder)
    (hr : NewResponder key mode length = .ok r) :
    ((r.mode = ModeCode ∧ 1 ≤ r.length ∧ r.length ≤ 19)
        ∨ (r.mode = ModePhrase ∧ 1 ≤ r.length ∧ r.length ≤ 23))
      ∧ (∀ (key2 : List Byte) (mode2 : Mode) (length2 : Int),
          mode2 ≠ ModeCode → mode2 ≠ ModePhrase →
            ∃ e, NewResponder key2 mode2 length2 = .error e)
      ∧ (∀ (P : Primitives) (wl : List GoString) (payload challenge : List Byte) (l : Int)
          (s : GoString) (m : Mode),
          (Response P wl r payload challenge l).2 ≠ .ret (s, some (.unsupportedMode m))) := by
  obtain ⟨_, hreq, hpos, hmax⟩ := NewResponder_ok_inv hr
  have hmode := NewResponder_mode hr
  refine ⟨?_, ?_, ?_⟩
  · subst hreq
    rcases hmode with h | h
    · left
      simp only at h
      subst h
      rw [lengthMaxOf_code] at hmax
      exact ⟨rfl, by simp only; omega, hmax⟩
    · right
      simp only at h
      subst h
      rw [lengthMaxOf_phrase] at hmax
      exact ⟨rfl, by simp only; omega, hmax⟩
  · intro key2 mode2 length2 hc hp
    by_cases hk : key2.length = 32
    · rw [NewResponder_eq hk]
      by_cases h0 : length2 ≤ 0
      · exact ⟨_, if_pos h0⟩
      · have hgt : length2 > lengthMaxOf mode2 := by
          simp only [lengthMaxOf, if_neg hc, if_neg hp]
          omega
        exact ⟨_, by rw [if_neg h0, if_pos hgt]⟩
    · exact ⟨.privateKey, by simp [NewResponder, newPrivateKey, hk]⟩
  · intro P wl payload challenge l s m
    simp only [Response]
    split
    · intro h; cases h
    · split
      · intro h; cases h
      · split
        · intro h; cases h
        · rcases hmode with h | h
          · rw [if_pos h]
            exact formatCodeNumeric_no_error _ _ _ _
          · have hne : ¬ r.mode = ModeCode := by
              rw [h]; decide
            rw [if_neg hne, if_pos h]
            intro hret
            have := formatCodeBIP39_error _ _ _ _ _ hret
            cases this

/-- Witness for C14: the key 1..32 in phrase mode with length 23. -/
theorem NewResponder_invariant_witness :
    (ModePhrase = ModeCode ∧ (1 : Int) ≤ 23 ∧ (23 : Int) ≤ 19)
      ∨ (ModePhrase = ModePhrase ∧ (1 : Int) ≤ 23 ∧ (23 : Int) ≤ 23) :=
  (NewResponder_invariant sampleKey ModePhrase 23
    { privKey := sampleKey, mode := ModePhrase, length := 23 } rfl).1

/-! ## The modulus of formatCodeNumeric -/

/-- C12: for every length in 1..19 the modulus `formatCodeNumeric`
computes by multiplying a `uint64` by 10 `length` times equals
`10 ^ length` exactly: `10 ^ length < 2 ^ 64`, and none of the
multiplications wraps. -/
theorem modulusLoop_exact (length : Int) (h1 : 1 ≤ length) (h2 : length ≤ 19) :
    modulusLoop length.toNat 1 = 10 ^ length.toNat
      ∧ 10 ^ length.toNat < 2 ^ 64
      ∧ (∀ k, k < length.toNat →
          modulusLoop k 1 * 10 < 2 ^ 64 ∧ modulusLoop (k + 1) 1 = modulusLoop k 1 * 10) := by
  obtain ⟨n, rfl⟩ : ∃ n : Nat, length = (n : Int) := ⟨length.toNat, by omega⟩
  have h2n : n ≤ 19 := by omega
  simp only [Int.toNat_ofNat]
  refine ⟨modulusLoop_one h2n, ?_, ?_⟩
  · calc 10 ^ n ≤ 10 ^ 19 := Nat.pow_le_pow_right (by norm_num) h2n
      _ < 2 ^ 64 := by norm_num
  · intro k hk
    have hk18 : k ≤ 18 := by omega
    rw [modulusLoop_one (by omega : k + 1 ≤ 19), modulusLoop_one (by omega : k ≤ 19)]
    refine ⟨?_, by rw [pow_succ]⟩
    calc 10 ^ k * 10 = 10 ^ (k + 1) := by rw [pow_succ]
      _ ≤ 10 ^ 19 := Nat.pow_le_pow_right (by norm_num) (by omega)
      _ < 2 ^ 64 := by norm_num

/-- Witness for C12: length 19, the largest one. -/
theorem modulusLoop_exact_witness :
    modulusLoop (19 : Int).toNat 1 = 10 ^ (19 : Int).toNat :=
  (modulusLoop_exact 19 (by decide) (by decide)).1

/-! ## The integer formatCodeBIP39 builds -/

theorem leValue_append (l m : List Byte) :
    leValue (l ++ m) = leValue l + 256 ^ l.length * leValue m := by
  induction l with
  | nil => simp [leValue]
  | cons b bs ih =>
    rw [List.cons_append, leValue, leValue, ih, List.length_cons, pow_succ]
    ring

theorem leValue_lt (l : List Byte) : leValue l < 256 ^ l.length := by
  induction l with
  | nil => simp [leValue]
  | cons b bs ih =>
    simp only [leValue, List.length_cons, pow_succ]
    have := b.isLt
    omega

/-- Counterexample to C13: on the sample digest (first byte 0x15, last
byte 0) the low-order 8 bits of the integer built from the reversed
digest are 0x15, not the last byte. -/
theorem lowBits_last_byte_counterexample :
    sampleDigest.length = 32
      ∧ beValue sampleDigest.reverse % 2 ^ 8 = 21
      ∧ (sampleDigest.getD 31 0).val = 0
      ∧ beValue sampleDigest.reverse % 2 ^ 8 ≠ (sampleDigest.getD 31 0).val := by
  decide

/-- C13, amended: for every 32-byte digest the low-order 8 bits of the
integer `N` that `formatCodeBIP39` builds (byte-reverse the digest, then
read it big-endian) equal the digest's first byte, `digest[0]`; the last
byte, `digest[31]`, is the high-order byte of `N` (bits 248..255). -/
theorem lowBits_first_byte (digest : List Byte) (hd : digest.length = 32) :
    beValue digest.reverse % 2 ^ 8 = (digest.getD 0 0).val
      ∧ beValue digest.reverse / 2 ^ 248 = (digest.getD 31 0).val := by
  rw [beValue_reverse]
  constructor
  · match digest, hd with
    | b :: bs, _ =>
      simp only [leValue, List.getD_cons_zero]
      have := b.isLt
      omega
  · have hsplit : digest = digest.take 31 ++ [digest.getD 31 0] := by
      have h1 : digest.drop 31 = [digest.getD 31 0] := by
        have hlen : (digest.drop 31).length = 1 := by rw [List.length_drop, hd]
        match hdr : digest.drop 31, hlen with
        | [x], _ =>
          have hx : digest.getD 31 0 = x := by
            have h0 : (digest.drop 31).getD 0 0 = x := by rw [hdr]; rfl
            rw [← h0]
            simp [List.getD_eq_getElem?_getD, List.getElem?_drop]
          rw [hx]
      conv_lhs => rw [← List.take_append_drop 31 digest, h1]
    have hlt := leValue_lt (digest.take 31)
    have hl31 : (digest.take 31).length = 31 := by rw [List.length_take, hd]; rfl
    rw [hl31] at hlt
    have hval : leValue digest =
        leValue (digest.take 31) + 256 ^ 31 * (digest.getD 31 0).val := by
      conv_lhs => rw [hsplit]
      rw [leValue_append, hl31]
      simp only [leValue, Nat.mul_zero, Nat.add_zero]
    have hpow : (256 : Nat) ^ 31 = 2 ^ 248 := by norm_num
    rw [hval]
    rw [hpow] at hlt ⊢
    rw [Nat.add_comm, Nat.mul_add_div (by positivity), Nat.div_eq_of_lt hlt]
    simp

/-- Witness for C13 amended: the sample digest. -/
theorem lowBits_first_byte_witness :
    beValue sampleDigest.reverse % 2 ^ 8 = (sampleDigest.getD 0 0).val :=
  (lowBits_first_byte sampleDigest (by decide)).1

/-! ## Phrases as base-2048 numerals -/

theorem formatCodeBIP39_selected {wl : List GoString} (hwl : wl.length = 2048)
    (sig : List Byte) {length : Int} (h0 : 0 ≤ length) (hmax : length ≤ 2 ^ 44) :
    formatCodeBIP39 wl sig length =
      .ret (List.intercalate [' '] (selectedWords wl (leValue sig) length.toNat), none) :=
  formatCodeBIP39_eq hwl sig h0 hmax

theorem selectedWords_length (wl : List GoString) (n k : Nat) :
    (selectedWords wl n k).length = k := by
  simp [selectedWords]

theorem selectedWords_mem {wl : List GoString} (hwl : wl.length = 2048) (n k : Nat) :
    ∀ w ∈ selectedWords wl n k, w ∈ wl := by
  intro w hw
  obtain ⟨i, _, rfl⟩ := List.mem_map.mp hw
  exact getD_mem_of_lt (by rw [hwl]; exact Nat.mod_lt _ (by norm_num))

/-- Splitting the joined phrase at spaces gives the selected words back. -/
theorem splitOn_selectedWords {wl : List GoString} (hwl : wl.length = 2048)
    (hsp : ∀ w ∈ wl, ' ' ∉ w) (n : Nat) {k : Nat} (hk : 1 ≤ k) :
    (List.intercalate [' '] (selectedWords wl n k)).splitOn ' ' = selectedWords wl n k := by
  apply List.splitOn_intercalate
  · intro l hl
    exact hsp l (selectedWords_mem hwl n k l hl)
  · intro h
    have := congrArg List.length h
    rw [selectedWords_length] at this
    simp at this
    omega

theorem take_selectedWords (wl : List GoString) (n : Nat) {k m : Nat} (hkm : k ≤ m) :
    (selectedWords wl n m).take k = selectedWords wl n k := by
  simp only [selectedWords, ← List.map_take, List.take_range, Nat.min_eq_left hkm]

/-- Positions of the selected words in a duplicate-free word list. -/
theorem indexOf_selectedWords {wl : List GoString} (hwl : wl.length = 2048) (hnd : wl.Nodup)
    (n k : Nat) :
    (selectedWords wl n k).map (fun w => @List.indexOf GoString instBEqOfDecidableEq w wl) =
      (List.range k).map (fun i => n / 2 ^ (11 * i) % 2048) := by
  simp only [selectedWords, List.map_map]
  apply List.map_congr_left
  intro i _
  have hlt : n / 2 ^ (11 * i) % 2048 < wl.length := by
    rw [hwl]; exact Nat.mod_lt _ (by norm_num)
  simp only [Function.comp, List.getD_eq_getElem _ _ hlt]
  exact List.indexOf_getElem hnd _ hlt

/-- The 11-bit windows of `n`, weighted by powers of 2048, add up to the
low `11 k` bits of `n`. -/
theorem sum_windows (n k : Nat) :
    ∑ j ∈ Finset.range k, (n / 2 ^ (11 * j) % 2048) * 2048 ^ j = n % 2 ^ (11 * k) := by
  induction k with
  | zero => simp [Nat.mod_one]
  | succ k ih =>
    rw [Finset.sum_range_succ, ih]
    have h1 : (2 : Nat) ^ (11 * (k + 1)) = 2 ^ (11 * k) * 2048 := by
      rw [show 11 * (k + 1) = 11 * k + 11 by ring, pow_add]
      norm_num
    have h2 : (2048 : Nat) ^ k = 2 ^ (11 * k) := by
      rw [show (2048 : Nat) = 2 ^ 11 by norm_num, ← pow_mul]
    rw [h1, Nat.mod_mul, h2]
    ring

/-- A window below position `11 k` only depends on the low `11 k` bits. -/
theorem window_mod (n : Nat) {i k : Nat} (hik : i < k) :
    n % 2 ^ (11 * k) / 2 ^ (11 * i) % 2048 = n / 2 ^ (11 * i) % 2048 := by
  obtain ⟨d, rfl⟩ : ∃ d, k = i + 1 + d := ⟨k - i - 1, by omega⟩
  have h1 : (2 : Nat) ^ (11 * (i + 1 + d)) = (2 ^ (11 * d) * 2048) * 2 ^ (11 * i) := by
    rw [show 11 * (i + 1 + d) = 11 * d + 11 + 11 * i by ring, pow_add, pow_add]
    norm_num
  rw [h1, Nat.mod_mul_left_div_self]
  exact Nat.mod_mod_of_dvd _ (Dvd.intro_left _ rfl)

theorem selectedWords_congr (wl : List GoString) {n1 n2 k : Nat}
    (h : n1 % 2 ^ (11 * k) = n2 % 2 ^ (11 * k)) :
    selectedWords wl n1 k = selectedWords wl n2 k := by
  simp only [selectedWords]
  apply List.map_congr_left
  intro i hi
  have hik : i < k := List.mem_range.mp hi
  rw [← window_mod n1 hik, ← window_mod n2 hik, h]

theorem digitChar_value {k : Nat} (h : k < 10) : (Nat.digitChar k).toNat - 48 = k := by
  interval_cases k <;> rfl

theorem toDigitsCore_value :
    ∀ (fuel n : Nat) (ds : List Char), n < fuel →
      ∃ pre, Nat.toDigitsCore 10 fuel n ds = pre ++ ds ∧ decimalValue pre = n := by
  intro fuel
  induction fuel with
  | zero => intro n ds h; omega
  | succ k ih =>
    intro n ds h
    unfold Nat.toDigitsCore
    by_cases h0 : n / 10 = 0
    · refine ⟨[Nat.digitChar (n % 10)], by simp [h0], ?_⟩
      have hn : n < 10 := by omega
      simp only [decimalValue, List.foldl_cons, List.foldl_nil, Nat.zero_mul, Nat.zero_add]
      rw [digitChar_value (Nat.mod_lt _ (by norm_num))]
      exact Nat.mod_eq_of_lt hn
    · obtain ⟨pre, hpre, hval⟩ := ih (n / 10) (Nat.digitChar (n % 10) :: ds) (by omega)
      refine ⟨pre ++ [Nat.digitChar (n % 10)], by simp [h0, hpre], ?_⟩
      unfold decimalValue at hval ⊢
      rw [List.foldl_append, hval]
      simp only [List.foldl_cons, List.foldl_nil]
      rw [digitChar_value (Nat.mod_lt _ (by norm_num))]
      omega

/-- The decimal representation reads back as the number. -/
theorem decimalValue_decimal (v : Nat) : decimalValue (decimal v) = v := by
  obtain ⟨pre, hpre, hval⟩ := toDigitsCore_value (v + 1) v [] (by omega)
  rw [decimal, Nat.toDigits, hpre, List.append_nil, hval]

theorem sampleWordList_nodup : sampleWordList.Nodup := by
  have hinj : Function.Injective (fun i : Nat => 'w' :: Nat.toDigits 10 i) := by
    intro i j h
    have h2 : Nat.toDigits 10 i = Nat.toDigits 10 j := (List.cons.inj h).2
    have h3 := congrArg decimalValue h2
    have hi := decimalValue_decimal i
    have hj := decimalValue_decimal j
    rw [decimal] at hi hj
    rw [hi, hj] at h3
    exact h3
  unfold sampleWordList
  exact List.Nodup.map hinj (List.nodup_range 2048)

/-- The indices read back from the phrase of `k >= 1` words. -/
theorem wordIndices_phrase {wl : List GoString} (hwl : wl.length = 2048) (hnd : wl.Nodup)
    (hsp : ∀ w ∈ wl, ' ' ∉ w) (n : Nat) {k : Nat} (hk : 1 ≤ k) :
    wordIndices wl (List.intercalate [' '] (selectedWords wl n k)) =
      (List.range k).map (fun i => n / 2 ^ (11 * i) % 2048) := by
  rw [wordIndices, splitOn_selectedWords hwl hsp n hk, indexOf_selectedWords hwl hnd]

theorem sum_wordIndices {wl : List GoString} (hwl : wl.length = 2048) (hnd : wl.Nodup)
    (hsp : ∀ w ∈ wl, ' ' ∉ w) (n : Nat) {k : Nat} (hk : 1 ≤ k) :
    ∑ j ∈ Finset.range k,
        (wordIndices wl (List.intercalate [' '] (selectedWords wl n k))).getD j 0 * 2048 ^ j
      = n % 2 ^ (11 * k) := by
  rw [wordIndices_phrase hwl hnd hsp n hk, ← sum_windows n k]
  apply Finset.sum_congr rfl
  intro j hj
  have hjk : j < k := Finset.mem_range.mp hj
  have hlen : j < ((List.range k).map (fun i => n / 2 ^ (11 * i) % 2048)).length := by
    simpa using hjk
  rw [List.getD_eq_getElem _ _ hlen]
  simp

/-- C15: for a 32-byte digest and a length in 1..23, with a 2048-entry
word list whose entries are pairwise distinct and contain no space,
splitting the phrase at spaces and replacing each word by its position in
the word list gives `length` indices `i_k` with
`sum of i_k * 2048 ^ k = N mod 2 ^ (11 * length)`, `N` the digest read as
a little-endian integer; two 32-byte digests give the same phrase if and
only if their values agree on the low `11 * length` bits, and these bits
lie inside the 256-bit digest. -/
theorem formatCodeBIP39_indices (wl : List GoString) (digest : List Byte) (length : Int)
    (hwl : wl.length = 2048) (hnd : wl.Nodup) (hsp : ∀ w ∈ wl, ' ' ∉ w)
    (hd : digest.length = 32) (h1 : 1 ≤ length) (h2 : length ≤ 23) :
    ∃ s, formatCodeBIP39 wl digest length = .ret (s, none)
      ∧ ((wordIndices wl s).length : Int) = length
      ∧ ∑ k ∈ Finset.range length.toNat, (wordIndices wl s).getD k 0 * 2048 ^ k
          = leValue digest % 2 ^ (11 * length.toNat)
      ∧ leValue digest = ∑ j ∈ Finset.range 32, (digest.getD j 0).val * 256 ^ j
      ∧ (∀ digest2 : List Byte, digest2.length = 32 →
          (formatCodeBIP39 wl digest2 length = formatCodeBIP39 wl digest length ↔
            leValue digest2 % 2 ^ (11 * length.toNat)
              = leValue digest % 2 ^ (11 * length.toNat)))
      ∧ 11 * length.toNat ≤ 256
      ∧ leValue digest < 2 ^ 256 := by
  have h0 : 0 ≤ length := by omega
  have hmax : length ≤ 2 ^ 44 := by omega
  have hk : 1 ≤ length.toNat := by omega
  refine ⟨_, formatCodeBIP39_selected hwl digest h0 hmax, ?_, sum_wordIndices hwl hnd hsp _ hk, ?_,
    ?_, by omega, ?_⟩
  · rw [wordIndices_phrase hwl hnd hsp _ hk]
    simp only [List.length_map, List.length_range]
    omega
  · rw [leValue_eq_sum, hd]
  · intro digest2 _
    rw [formatCodeBIP39_selected hwl digest h0 hmax,
      formatCodeBIP39_selected hwl digest2 h0 hmax]
    constructor
    · intro h
      injection h with h
      have hs := congrArg Prod.fst h
      simp only at hs
      rw [← sum_wordIndices hwl hnd hsp (leValue digest2) hk,
        ← sum_wordIndices hwl hnd hsp (leValue digest) hk, hs]
    · intro h
      rw [selectedWords_congr wl h]
  · have := leValue_lt digest
    rw [hd] at this
    calc leValue digest < 256 ^ 32 := this
      _ = 2 ^ 256 := by norm_num

/-- C16: for a 32-byte digest and lengths `1 <= k <= m <= 23`, with a
2048-entry word list of space-free words, the `k` words of
`formatCodeBIP39 digest k` are exactly the first `k` words, in order, of
`formatCodeBIP39 digest m`. -/
theorem formatCodeBIP39_prefix (wl : List GoString) (digest : List Byte) (k m : Int)
    (hwl : wl.length = 2048) (hsp : ∀ w ∈ wl, ' ' ∉ w)
    (_hd : digest.length = 32) (hk : 1 ≤ k) (hkm : k ≤ m) (hm : m ≤ 23) :
    ∃ sk sm, formatCodeBIP39 wl digest k = .ret (sk, none)
      ∧ formatCodeBIP39 wl digest m = .ret (sm, none)
      ∧ ((sk.splitOn ' ').length : Int) = k
      ∧ ((sm.splitOn ' ').length : Int) = m
      ∧ sk.splitOn ' ' = (sm.splitOn ' ').take k.toNat := by
  have hk1 : 1 ≤ k.toNat := by omega
  have hm1 : 1 ≤ m.toNat := by omega
  refine ⟨_, _, formatCodeBIP39_selected hwl digest (by omega) (by omega),
    formatCodeBIP39_selected hwl digest (by omega) (by omega), ?_, ?_, ?_⟩
  · rw [splitOn_selectedWords hwl hsp _ hk1, selectedWords_length]
    omega
  · rw [splitOn_selectedWords hwl hsp _ hm1, selectedWords_length]
    omega
  · rw [splitOn_selectedWords hwl hsp _ hk1, splitOn_selectedWords hwl hsp _ hm1,
      take_selectedWords wl _ (by omega)]

/-- Witness for C15: the sample digest and four words. -/
theorem formatCodeBIP39_indices_witness :
    ∃ s, formatCodeBIP39 sampleWordList sampleDigest 4 = .ret (s, none)
      ∧ ((wordIndices sampleWordList s).length : Int) = 4
      ∧ ∑ k ∈ Finset.range (4 : Int).toNat, (wordIndices sampleWordList s).getD k 0 * 2048 ^ k
          = leValue sampleDigest % 2 ^ (11 * (4 : Int).toNat) :=
  let ⟨s, h1, h2, h3, _⟩ := formatCodeBIP39_indices sampleWordList sampleDigest 4
    sampleWordList_length sampleWordList_nodup (fun w hw => (sampleWordList_words w hw).2)
    (by decide) (by decide) (by decide)
  ⟨s, h1, h2, h3⟩

/-- Witness for C16: the sample digest, two words against four. -/
theorem formatCodeBIP39_prefix_witness :
    ∃ sk sm, formatCodeBIP39 sampleWordList sampleDigest 2 = .ret (sk, none)
      ∧ formatCodeBIP39 sampleWordList sampleDigest 4 = .ret (sm, none)
      ∧ ((sk.splitOn ' ').length : Int) = 2
      ∧ ((sm.splitOn ' ').length : Int) = 4
      ∧ sk.splitOn ' ' = (sm.splitOn ' ').take (2 : Int).toNat :=
  formatCodeBIP39_prefix sampleWordList sampleDigest 2 4 sampleWordList_length
    (fun w hw => (sampleWordList_words w hw).2) (by decide) (by decide) (by decide) (by decide)

end Pbotp
